import Mathlib

/-!
Verification of the template-substitution utility `docker/kratos/substitute.py`.

The script reads a template file, resolves four fixed environment variables
(defaulting to the empty string when unset), replaces every occurrence of the
literal placeholder token built as the three-part concatenation
dollar, open-brace, NAME, close-brace for each variable in declaration order
using Python plain `str.replace`, writes the result, and prints a
confirmation line.

Strings are modelled as `List Char`; the ambient environment is a partial map
from variable names to values; the file system is a partial map from paths to
contents.  Python `str.replace` (left-to-right, non-overlapping, plain
substring replacement) is modelled by `replaceAll` below via a
fuel-indexed structural recursion (`raux`); the fuel is the length of the
scanned string, which suffices because every pattern used by the script is a
placeholder token and hence non-empty.
-/

/-- An environment: variable name to optional value (`os.environ`). -/
def Env : Type := String → Option (List Char)

/-- The fixed variable table keys, in the declaration (= Python dict insertion)
order of `vars_to_sub` in the source. -/
def varNames : List String :=
  ["KRATOS_DSN", "KRATOS_CIPHER_SECRET", "KRATOS_COOKIE_SECRET",
   "KRATOS_SMTP_CONNECTION_URI"]

/-- `vars_to_sub` from the source: each value is `os.environ.get(name, '')`. -/
def vars_to_sub (env : Env) : List (String × List Char) :=
  varNames.map (fun n => (n, (env n).getD []))

/-- The literal placeholder text built in the loop body:
`placeholder = '${' + var_name + '}'`. -/
def placeholder (name : String) : String :=
  "$\x7b" ++ name ++ "\x7d"

/-- Fuel-indexed scanner for Python `str.replace p r`: left-to-right,
non-overlapping, plain substring replacement.  The fuel bounds the number of
positions scanned; it is consumed once per step so the recursion is
structural. -/
def raux (p r : List Char) : Nat → List Char → List Char
  | _, [] => []
  | 0, s => s
  | fuel + 1, c :: cs =>
      if p.isPrefixOf (c :: cs) then
        r ++ raux p r fuel ((c :: cs).drop p.length)
      else
        c :: raux p r fuel cs

/-- Python `s.replace(p, r)` for a non-empty pattern `p` (every pattern used
by the script is a placeholder token, hence non-empty): replace all
non-overlapping occurrences of `p` in `s` by `r`, scanning left to right. -/
def replaceAll (p r s : List Char) : List Char :=
  raux p r s.length s

/-- The replacement loop of the script: fold the four replacements over the
content in the declared order of the table. -/
def substituteContent (env : Env) (content : List Char) : List Char :=
  (vars_to_sub env).foldl
    (fun acc nv => replaceAll (placeholder nv.1).data nv.2 acc) content

/-- Variable name of table entry `i` (declaration order). -/
def NAME : Fin 4 → String
  | ⟨0, _⟩ => "KRATOS_DSN"
  | ⟨1, _⟩ => "KRATOS_CIPHER_SECRET"
  | ⟨2, _⟩ => "KRATOS_COOKIE_SECRET"
  | ⟨3, _⟩ => "KRATOS_SMTP_CONNECTION_URI"
  | ⟨n + 4, h⟩ => absurd h (by omega)

/-- The placeholder token of table entry `i`, as a character list. -/
def TOK (i : Fin 4) : List Char :=
  (placeholder (NAME i)).data

/-- The resolved value of table entry `i` under environment `env`. -/
def vals (env : Env) (i : Fin 4) : List Char :=
  (env (NAME i)).getD []

/-- The replacement loop generalized to an arbitrary pass order over table
indices; `substituteContent` is the instance at the declared order. -/
def seqSubst (env : Env) (ord : List (Fin 4)) (content : List Char) : List Char :=
  ord.foldl (fun acc i => replaceAll (TOK i) (vals env i) acc) content

/-- Observable effects of a run: file reads, file writes, console output. -/
inductive Eff : Type
  | readFile (path : String)
  | writeFile (path : String) (content : List Char)
  | printLine (msg : String)
deriving DecidableEq

/-- Failure modes of a run: missing positional argument (Python raises
`IndexError` at `sys.argv[1]` / `sys.argv[2]`) or a filesystem error. -/
inductive MainErr : Type
  | argErr
  | ioErr
deriving DecidableEq

/-- The whole script: read `sys.argv[1]` and `sys.argv[2]` (argument error
when absent, before any file access), read the template, substitute, write
the output, print the confirmation line. -/
def runMain (argv : List String) (env : Env) (fs : String → Option (List Char)) :
    Except MainErr Unit × List Eff :=
  match argv.get? 1, argv.get? 2 with
  | some tf, some outf =>
      match fs tf with
      | none => (Except.error MainErr.ioErr, [Eff.readFile tf])
      | some content =>
          (Except.ok (),
            [Eff.readFile tf,
             Eff.writeFile outf (substituteContent env content),
             Eff.printLine ("Substituted variables in " ++ tf ++ " -> " ++ outf)])
  | _, _ => (Except.error MainErr.argErr, [])

/-- A string is token-free when no recognized placeholder token occurs in it. -/
def TokenFree (w : List Char) : Prop :=
  ∀ i : Fin 4, ¬ TOK i <:+: w

instance (w : List Char) : Decidable (TokenFree w) := by
  unfold TokenFree; infer_instance

/-- A pattern is unbordered when no proper non-empty suffix of it is also one
of its prefixes.  Every placeholder token is unbordered because the dollar
sign occurs only at its first position. -/
def Unbordered (p : List Char) : Prop :=
  ∀ k < p.length, 0 < k → ¬ (p.drop k <+: p)

instance (p : List Char) : Decidable (Unbordered p) := by
  unfold Unbordered; infer_instance

/-- Template built from pieces joined by a separator: the canonical shape for
stating which occurrences a pass replaces. -/
def interc (sep : List Char) : List (List Char) → List Char
  | [] => []
  | [x] => x
  | x :: y :: xs => x ++ sep ++ interc sep (y :: xs)

/-- Concrete environment used by the C5 witness: only KRATOS_DSN is set. -/
def env5 : Env := fun n => if n = "KRATOS_DSN" then some ("postgres").data else none

/-- Characters that are special in regular expressions, used to state C7. -/
def regexSpecials : List Char := ['.', '*', '\\', '$']

/-- Concrete environment used by the C7 witness: DSN holds regex-special
characters. -/
def env7 : Env := fun n => if n = "KRATOS_DSN" then some (".*\\$").data else none

/-- A marked template: token-free pieces, each followed by the placeholder of
a designated table entry, and a final token-free piece.  Rendering yields the
literal template text. -/
def render2 : List (List Char × Fin 4) → List Char → List Char
  | [], last => last
  | (w, j) :: rest, last => w ++ TOK j ++ render2 rest last

/-- Rendering a marked template with every designated occurrence replaced by
its resolved value: the literal-insertion (no re-expansion) semantics. -/
def renderDone (env : Env) : List (List Char × Fin 4) → List Char → List Char
  | [], last => last
  | (w, j) :: rest, last => w ++ vals env j ++ renderDone env rest last

/-- All pieces of a marked template are token-free. -/
def PiecesOK (ms : List (List Char × Fin 4)) (last : List Char) : Prop :=
  (∀ wj ∈ ms, TokenFree wj.1) ∧ TokenFree last

/-- A value is insertion-safe when it is non-empty and shares no character
with any placeholder token: inserting it can neither create nor take part in
a token occurrence. -/
def VOK (v : List Char) : Prop :=
  v ≠ [] ∧ ∀ q : Fin 4, ∀ c ∈ v, c ∉ TOK q

instance (v : List Char) : Decidable (VOK v) := by
  unfold VOK; infer_instance

/-- The marked template after one pass for entry `i` with value `v`: marks
for `i` disappear and their surrounding pieces merge with `v` in between. -/
def collapse (i : Fin 4) (v : List Char) :
    List (List Char × Fin 4) → List Char → List (List Char × Fin 4) × List Char
  | [], last => ([], last)
  | (w, j) :: rest, last =>
      let p := collapse i v rest last
      if j = i then
        match p.1 with
        | [] => ([], w ++ v ++ p.2)
        | (w', k) :: tl => ((w ++ v ++ w', k) :: tl, p.2)
      else ((w, j) :: p.1, p.2)

instance (ms : List (List Char × Fin 4)) (last : List Char) :
    Decidable (PiecesOK ms last) := by
  unfold PiecesOK; infer_instance

/-- Environment exhibiting re-expansion: the DSN value contains the cipher
token, and the cipher variable holds the letter X. -/
def envC1 : Env := fun n =>
  if n = "KRATOS_DSN" then some (placeholder "KRATOS_CIPHER_SECRET").data
  else if n = "KRATOS_CIPHER_SECRET" then some ("X").data
  else none

/-- Environment with all four variables set to an insertion-safe value. -/
def envW : Env := fun _ => some ("v1").data

/-- The all-unset environment: every value resolves to the empty string. -/
def envN : Env := fun _ => none

/-- Counterexample template for order dependence: removing the cipher token
from it glues the surrounding text into a DSN token. -/
def cexT2 : List Char :=
  ("$\x7b$\x7bKRATOS_CIPHER_SECRET\x7dKRATOS_DSN\x7d").data

/-- Concrete file system used by the C8 witness. -/
def fsW : String → Option (List Char) :=
  fun q => if q = "tpl" then some ("a").data else none

/-- Environment agreeing with `envN` on the four table variables but not on
an unrelated variable. -/
def env9 : Env := fun n => if n = "HOME" then some ("z").data else none

/-- An unrecognized placeholder: text that starts with a dollar sign,
contains no further dollar sign, and is prefix-incomparable with every one of
the four recognized tokens (so it is none of them and no occurrence of a
recognized token can overlap an occurrence of it).  The token built from any
unrecognized name, e.g. UNKNOWN_VAR, satisfies this. -/
def UnknownTok (u : List Char) : Prop :=
  u.head? = some '$' ∧
  (∀ k < u.length, 0 < k → (u.drop k).head? ≠ some '$') ∧
  (∀ i : Fin 4, ¬ TOK i <+: u ∧ ¬ u <+: TOK i)

instance (u : List Char) : Decidable (UnknownTok u) := by
  unfold UnknownTok; infer_instance

/-- The declared pass order equals the generalized fold at order 0,1,2,3. -/
theorem subst_eq_seq (env : Env) (c : List Char) :
    substituteContent env c = seqSubst env [0, 1, 2, 3] c := rfl

theorem tok_ne_nil : ∀ i : Fin 4, TOK i ≠ [] := by decide

theorem tok_len_pos : ∀ i : Fin 4, 0 < (TOK i).length := by decide

theorem tok_unbordered : ∀ i : Fin 4, Unbordered (TOK i) := by decide

theorem tok_head : ∀ i : Fin 4, (TOK i).head? = some '$' := by decide

theorem tok_no_inner_dollar :
    ∀ i : Fin 4, ∀ k < (TOK i).length, 0 < k →
      ((TOK i).drop k).head? ≠ some '$' := by decide

theorem tok_not_pref_pair : ∀ i j : Fin 4, i ≠ j → ¬ (TOK i <+: TOK j) := by decide

theorem raux_congr (p r : List Char) (hp : p ≠ []) :
    ∀ f₁ f₂ s, s.length ≤ f₁ → s.length ≤ f₂ →
      raux p r f₁ s = raux p r f₂ s := by
  have hp1 : 1 ≤ p.length := by
    cases p with
    | nil => exact absurd rfl hp
    | cons a t => simp
  intro f₁
  induction f₁ using Nat.strong_induction_on with
  | _ f₁ ih =>
    intro f₂ s h₁ h₂
    cases s with
    | nil => cases f₁ <;> cases f₂ <;> rfl
    | cons c cs =>
      cases f₁ with
      | zero => simp at h₁
      | succ g₁ =>
        cases f₂ with
        | zero => simp at h₂
        | succ g₂ =>
          simp only [List.length_cons] at h₁ h₂
          by_cases hpre : p.isPrefixOf (c :: cs)
          · simp only [raux, hpre, if_true]
            have hlen : ((c :: cs).drop p.length).length ≤ g₁ := by
              simp only [List.length_drop, List.length_cons]; omega
            have hlen2 : ((c :: cs).drop p.length).length ≤ g₂ := by
              simp only [List.length_drop, List.length_cons]; omega
            rw [ih g₁ (by omega) g₂ _ hlen hlen2]
          · have hb : p.isPrefixOf (c :: cs) = false := by
              rw [← Bool.not_eq_true]; exact hpre
            simp only [raux, hb, Bool.false_eq_true, if_false]
            rw [ih g₁ (by omega) g₂ cs (by omega) (by omega)]

theorem ra_nil (p r : List Char) : replaceAll p r [] = [] := rfl

theorem ra_pos (p r s : List Char) (hp : p ≠ []) (hs : s ≠ [])
    (hpre : p <+: s) :
    replaceAll p r s = r ++ replaceAll p r (s.drop p.length) := by
  match s with
  | [] => exact absurd rfl hs
  | c :: cs =>
    unfold replaceAll
    have hb : p.isPrefixOf (c :: cs) = true := List.isPrefixOf_iff_prefix.mpr hpre
    simp only [List.length_cons, raux, hb, if_true]
    congr 1
    apply raux_congr p r hp
    · have hp1 : 1 ≤ p.length := by
        cases p with
        | nil => exact absurd rfl hp
        | cons a t => simp
      simp only [List.length_drop, List.length_cons]
      omega
    · exact Nat.le_refl _

theorem ra_neg (p r : List Char) (c : Char) (cs : List Char)
    (hpre : ¬ p <+: (c :: cs)) :
    replaceAll p r (c :: cs) = c :: replaceAll p r cs := by
  unfold replaceAll
  have hb : p.isPrefixOf (c :: cs) = false := by
    rw [← Bool.not_eq_true, List.isPrefixOf_iff_prefix]
    exact hpre
  simp only [List.length_cons, raux, hb, Bool.false_eq_true, if_false]

/-- Identity pass: when the pattern does not occur, a replacement pass
returns its input unchanged. -/
theorem ra_id (p r : List Char) :
    ∀ s : List Char, ¬ p <:+: s → replaceAll p r s = s := by
  intro s
  induction s with
  | nil => intro _; rfl
  | cons c cs ih =>
    intro hni
    have hnp : ¬ p <+: (c :: cs) := fun h => hni h.isInfix
    rw [ra_neg p r c cs hnp, ih (fun h => hni (List.infix_cons h))]

theorem pref_head_eq {p s : List Char} (h : p <+: s) (hp : p ≠ []) :
    p.head? = s.head? := by
  obtain ⟨t, rfl⟩ := h
  exact (List.head?_append_of_ne_nil p hp).symm

theorem pref_split {p u t : List Char} (h : p <+: u ++ t)
    (hl : u.length ≤ p.length) : u <+: p ∧ p.drop u.length <+: t := by
  have hu : u <+: p :=
    List.prefix_of_prefix_length_le (List.prefix_append u t) h hl
  obtain ⟨q, hq⟩ := hu
  refine ⟨⟨q, hq⟩, ?_⟩
  have hdrop : p.drop u.length = q := by rw [← hq, List.drop_left]
  rw [hdrop]
  have h2 : u ++ q <+: u ++ t := by rw [hq]; exact h
  exact (List.prefix_append_right_inj u).mp h2

/-- No placeholder token can start at a non-empty suffix of a token-free
piece when the text that follows starts with a dollar sign. -/
theorem s1_piece {w t : List Char} (hw : TokenFree w)
    (ht : t.head? = some '$') (i : Fin 4) :
    ∀ u, u <:+ w → u ≠ [] → ¬ TOK i <+: u ++ t := by
  intro u hsuf hne hpre
  by_cases hlen : (TOK i).length ≤ u.length
  · have htu : TOK i <+: u :=
      List.prefix_of_prefix_length_le hpre (List.prefix_append u t) hlen
    obtain ⟨pre, hpre'⟩ := hsuf
    obtain ⟨post, hpost⟩ := htu
    exact hw i ⟨pre, post, by rw [List.append_assoc, hpost, hpre']⟩
  · push_neg at hlen
    have hsp := pref_split hpre (le_of_lt hlen)
    have hne' : (TOK i).drop u.length ≠ [] := by
      intro h0
      have := congrArg List.length h0
      simp only [List.length_drop, List.length_nil] at this
      omega
    have hh : ((TOK i).drop u.length).head? = t.head? := pref_head_eq hsp.2 hne'
    rw [ht] at hh
    have hk : 0 < u.length := by
      cases u with
      | nil => exact absurd rfl hne
      | cons a b => simp
    exact tok_no_inner_dollar i u.length hlen hk hh

/-- No placeholder token can start strictly inside another token occurrence. -/
theorem s2_inner {i j : Fin 4} {k : Nat} (hk0 : 0 < k) (hk : k < (TOK j).length)
    (t : List Char) : ¬ TOK i <+: (TOK j).drop k ++ t := by
  intro hpre
  have h1 : (TOK i).head? = ((TOK j).drop k ++ t).head? :=
    pref_head_eq hpre (tok_ne_nil i)
  rw [tok_head i] at h1
  have hdne : (TOK j).drop k ≠ [] := by
    intro h0
    have := congrArg List.length h0
    simp only [List.length_drop, List.length_nil] at this
    omega
  rw [List.head?_append_of_ne_nil _ hdne] at h1
  exact tok_no_inner_dollar j k hk hk0 h1.symm

/-- No placeholder token can start exactly at a different token occurrence. -/
theorem s3_tok_start {i j : Fin 4} (hij : i ≠ j) (t : List Char) :
    ¬ TOK i <+: TOK j ++ t := by
  intro hpre
  by_cases hlen : (TOK i).length ≤ (TOK j).length
  · exact tok_not_pref_pair i j hij
      (List.prefix_of_prefix_length_le hpre (List.prefix_append _ _) hlen)
  · push_neg at hlen
    have hsp := pref_split hpre (le_of_lt hlen)
    exact tok_not_pref_pair j i (Ne.symm hij) hsp.1

/-- A replacement pass walks over a chunk unchanged when no match can start
inside the chunk. -/
theorem skip_chunk (p r : List Char) :
    ∀ w t, (∀ u, u <:+ w → u ≠ [] → ¬ p <+: u ++ t) →
      replaceAll p r (w ++ t) = w ++ replaceAll p r t := by
  intro w
  induction w with
  | nil => intro t _; rfl
  | cons c w' ih =>
    intro t hH
    have hnp : ¬ p <+: c :: (w' ++ t) := by
      have := hH (c :: w') List.suffix_rfl (by simp)
      simpa using this
    rw [List.cons_append, ra_neg p r c (w' ++ t) hnp,
      ih t (fun u hu hne => hH u (hu.trans (List.suffix_cons c w')) hne)]
    rfl

/-- A pass for token `i` walks over an occurrence of a different token `j`
unchanged. -/
theorem tok_chunk {i j : Fin 4} (hij : i ≠ j) (v t : List Char) :
    replaceAll (TOK i) v (TOK j ++ t) = TOK j ++ replaceAll (TOK i) v t := by
  apply skip_chunk
  intro u hsuf hne hpre
  obtain ⟨pre, hpre'⟩ := hsuf
  by_cases hk : pre = []
  · subst hk
    simp only [List.nil_append] at hpre'
    subst hpre'
    exact s3_tok_start hij t hpre
  · have hu_eq : u = (TOK j).drop pre.length := by rw [← hpre', List.drop_left]
    have hk0 : 0 < pre.length := by
      cases pre with
      | nil => exact absurd rfl hk
      | cons a b => simp
    have hkl : pre.length < (TOK j).length := by
      have hLL : pre.length + u.length = (TOK j).length := by
        rw [← hpre', List.length_append]
      have hu0 : 0 < u.length := by
        cases u with
        | nil => exact absurd rfl hne
        | cons a b => simp
      omega
    rw [hu_eq] at hpre
    exact s2_inner hk0 hkl t hpre

/-- The occurrence lemma: when the unbordered pattern does not occur in the
part before a designated occurrence, the pass replaces that occurrence and
continues after it.  Note that the replacement text is arbitrary — in
particular it may itself contain the pattern and is still never re-scanned
within the pass. -/
theorem ra_match (p r : List Char) (hub : Unbordered p) (hp : p ≠ []) :
    ∀ a b, ¬ p <:+: a → replaceAll p r (a ++ p ++ b) = a ++ r ++ replaceAll p r b := by
  intro a
  induction a with
  | nil =>
    intro b _
    simp only [List.nil_append]
    rw [ra_pos p r (p ++ b) hp (by
        cases p with
        | nil => exact absurd rfl hp
        | cons x y => simp) (List.prefix_append p b)]
    rw [List.drop_left]
  | cons c a' ih =>
    intro b hni
    have hnp : ¬ p <+: c :: (a' ++ p ++ b) := by
      intro hpre
      have hpre2 : p <+: (c :: a') ++ (p ++ b) := by
        simpa [List.append_assoc] using hpre
      by_cases hlen : p.length ≤ (c :: a').length
      · have hpa : p <+: (c :: a') :=
          List.prefix_of_prefix_length_le hpre2 (List.prefix_append _ _) hlen
        exact hni hpa.isInfix
      · push_neg at hlen
        have hsp := pref_split hpre2 (le_of_lt hlen)
        have hlen2 : (p.drop (c :: a').length).length ≤ p.length := by
          simp [List.length_drop]
        have hpp : p.drop (c :: a').length <+: p :=
          List.prefix_of_prefix_length_le hsp.2 (List.prefix_append _ _) hlen2
        exact hub (c :: a').length hlen (by simp) hpp
    have hstep : replaceAll p r (c :: (a' ++ p ++ b)) =
        c :: replaceAll p r (a' ++ p ++ b) := ra_neg p r c _ hnp
    have hrec := ih b (fun h => hni (List.infix_cons h))
    calc replaceAll p r ((c :: a') ++ p ++ b)
        = replaceAll p r (c :: (a' ++ p ++ b)) := by simp [List.append_assoc]
      _ = c :: replaceAll p r (a' ++ p ++ b) := hstep
      _ = c :: (a' ++ r ++ replaceAll p r b) := by rw [hrec]
      _ = (c :: a') ++ r ++ replaceAll p r b := by simp [List.append_assoc]

/-- A single pass replaces every designated occurrence, identically, and the
inserted replacement text is never re-scanned within the pass. -/
theorem ra_interc (p r : List Char) (hub : Unbordered p) (hp : p ≠ []) :
    ∀ xs, (∀ x ∈ xs, ¬ p <:+: x) →
      replaceAll p r (interc p xs) = interc r xs := by
  intro xs
  induction xs with
  | nil => intro _; rfl
  | cons x ys ih =>
    intro hxs
    cases ys with
    | nil => exact ra_id p r x (hxs x (by simp))
    | cons y zs =>
      show replaceAll p r (x ++ p ++ interc p (y :: zs)) = x ++ r ++ interc r (y :: zs)
      rw [ra_match p r hub hp x _ (hxs x (by simp))]
      rw [ih (fun z hz => hxs z (by simp [hz]))]

/-- An occurrence of token `j` inside text starting with an occurrence of a
different token `i` must lie entirely after that occurrence. -/
theorem tok_sfx_skip {j i : Fin 4} (hji : j ≠ i) :
    ∀ w, w <:+ TOK i → ∀ R, TOK j <:+: (w ++ R) → TOK j <:+: R := by
  intro w
  induction w with
  | nil => intro _ R h; simpa using h
  | cons c w' ih =>
    intro hsuf R hinf
    rw [List.cons_append] at hinf
    rcases List.infix_cons_iff.mp hinf with hpre | htail
    · exfalso
      have hpre2 : TOK j <+: (c :: w') ++ R := by simpa using hpre
      obtain ⟨pre, hpre'⟩ := hsuf
      by_cases hk : pre = []
      · subst hk
        simp only [List.nil_append] at hpre'
        rw [hpre'] at hpre2
        exact s3_tok_start hji R hpre2
      · have hw_eq : c :: w' = (TOK i).drop pre.length := by
          rw [← hpre', List.drop_left]
        have hk0 : 0 < pre.length := by
          cases pre with
          | nil => exact absurd rfl hk
          | cons a b => simp
        have hkl : pre.length < (TOK i).length := by
          have hLL : pre.length + (c :: w').length = (TOK i).length := by
            rw [← hpre', List.length_append]
          simp only [List.length_cons] at hLL
          omega
        rw [hw_eq] at hpre2
        exact s2_inner hk0 hkl R hpre2
    · exact ih (((w').suffix_cons c).trans hsuf) R htail

/-- An occurrence of a token inside a token-free piece followed by text that
starts with a dollar sign must lie entirely after the piece. -/
theorem piece_skip_inf {q : Fin 4} :
    ∀ w t, TokenFree w → t.head? = some '$' →
      TOK q <:+: (w ++ t) → TOK q <:+: t := by
  intro w
  induction w with
  | nil => intro t _ _ h; simpa using h
  | cons c w' ih =>
    intro t hw ht hinf
    rw [List.cons_append] at hinf
    rcases List.infix_cons_iff.mp hinf with hpre | htail
    · exact absurd (by simpa using hpre)
        (s1_piece hw ht q (c :: w') List.suffix_rfl (by simp))
    · exact ih t (fun i h => hw i (List.infix_cons h)) ht htail

/-- A template assembled from token-free pieces around occurrences of token
`i` contains no occurrence of any other token `j`. -/
theorem notin_interc {j i : Fin 4} (hji : j ≠ i) :
    ∀ xs, (∀ x ∈ xs, TokenFree x) → ¬ TOK j <:+: interc (TOK i) xs := by
  intro xs
  induction xs with
  | nil =>
    intro _ h
    exact tok_ne_nil j (List.infix_nil.mp h)
  | cons x ys ih =>
    intro hxs hinf
    cases ys with
    | nil => exact hxs x (by simp) j hinf
    | cons y zs =>
      have hinf2 : TOK j <:+: x ++ (TOK i ++ interc (TOK i) (y :: zs)) := by
        have : interc (TOK i) (x :: y :: zs) =
            x ++ (TOK i ++ interc (TOK i) (y :: zs)) := by
          simp [interc, List.append_assoc]
        rwa [this] at hinf
      have hhd : (TOK i ++ interc (TOK i) (y :: zs)).head? = some '$' := by
        rw [List.head?_append_of_ne_nil _ (tok_ne_nil i)]
        exact tok_head i
      have h2 := piece_skip_inf x _ (hxs x (by simp)) hhd hinf2
      have h3 := tok_sfx_skip hji (TOK i) List.suffix_rfl _ h2
      exact ih (fun z hz => hxs z (by simp [hz])) h3

/-- Full-program single-variable substitution: when the template is built
from token-free pieces around occurrences of token `i` and the substituted
result is itself token-free, the program joins the pieces with the resolved
value of variable `i`. -/
theorem gen_single (env : Env) (i : Fin 4) (xs : List (List Char))
    (hxs : ∀ x ∈ xs, TokenFree x)
    (hout : TokenFree (interc (vals env i) xs)) :
    substituteContent env (interc (TOK i) xs) = interc (vals env i) xs := by
  rw [subst_eq_seq]
  have hrep : ∀ j : Fin 4, j ≠ i →
      replaceAll (TOK j) (vals env j) (interc (TOK i) xs) = interc (TOK i) xs :=
    fun j hj => ra_id _ _ _ (notin_interc hj xs hxs)
  have hid2 : ∀ j : Fin 4,
      replaceAll (TOK j) (vals env j) (interc (vals env i) xs) =
        interc (vals env i) xs :=
    fun j => ra_id _ _ _ (hout j)
  have hmain : replaceAll (TOK i) (vals env i) (interc (TOK i) xs) =
      interc (vals env i) xs :=
    ra_interc _ _ (tok_unbordered i) (tok_ne_nil i) xs (fun x hx => hxs x hx i)
  have hstep : ∀ (j : Fin 4) (rest : List (Fin 4)) (c : List Char),
      seqSubst env (j :: rest) c =
        seqSubst env rest (replaceAll (TOK j) (vals env j) c) :=
    fun _ _ _ => rfl
  have hfix : ∀ ord', seqSubst env ord' (interc (vals env i) xs) =
      interc (vals env i) xs := by
    intro ord'
    induction ord' with
    | nil => rfl
    | cons j rest ihf => rw [hstep j rest, hid2 j]; exact ihf
  have hord : ∀ ord', i ∈ ord' →
      seqSubst env ord' (interc (TOK i) xs) = interc (vals env i) xs := by
    intro ord'
    induction ord' with
    | nil => intro h; simp at h
    | cons j rest iho =>
      intro hmem
      by_cases hj : j = i
      · subst hj
        rw [hstep j rest, hmain]
        exact hfix rest
      · have hmem' : i ∈ rest := by
          rcases List.mem_cons.mp hmem with h | h
          · exact absurd h.symm hj
          · exact h
        rw [hstep j rest, hrep j hj]
        exact iho hmem'
  exact hord [0, 1, 2, 3] (by
    have : ∀ q : Fin 4, q ∈ ([0, 1, 2, 3] : List (Fin 4)) := by decide
    exact this i)

theorem interc_nil_sep : ∀ xs : List (List Char), interc [] xs = xs.flatten := by
  intro xs
  induction xs with
  | nil => rfl
  | cons x ys ih =>
    cases ys with
    | nil => simp [interc]
    | cons y zs =>
      show x ++ [] ++ interc [] (y :: zs) = (x :: y :: zs).flatten
      rw [ih]
      simp

/-- C3: a template that contains no occurrence of any of the four recognized
placeholder tokens is returned unchanged by the substitution, for every
environment (identity property). -/
theorem c3_identity (env : Env) (t : List Char) (h : TokenFree t) :
    substituteContent env t = t := by
  rw [subst_eq_seq]
  have hall : ∀ ord, seqSubst env ord t = t := by
    intro ord
    induction ord with
    | nil => rfl
    | cons j rest ih =>
      show seqSubst env rest (replaceAll (TOK j) (vals env j) t) = t
      rw [ra_id _ _ _ (h j)]
      exact ih
  exact hall _

/-- Closed witness for C3 at a concrete token-free template. -/
theorem c3_identity_witness :
    TokenFree ("hello world").data ∧
      substituteContent (fun _ => none) ("hello world").data = ("hello world").data :=
  ⟨by decide, c3_identity (fun _ => none) ("hello world").data (by decide)⟩

/-- C5: for a template built as token-free pieces around the occurrences of
the token of variable `i`, every occurrence is replaced by the resolved
value, identically, and the rest of the template is untouched, provided the
substituted result is itself token-free. -/
theorem c5_all_occurrences (env : Env) (i : Fin 4) (xs : List (List Char))
    (hxs : ∀ x ∈ xs, TokenFree x)
    (hout : TokenFree (interc (vals env i) xs)) :
    substituteContent env (interc (TOK i) xs) = interc (vals env i) xs :=
  gen_single env i xs hxs hout

/-- Closed witness for C5: two occurrences of the DSN token, both replaced
identically. -/
theorem c5_all_occurrences_witness :
    (∀ x ∈ [("A=").data, ("-").data, ("!").data], TokenFree x) ∧
      TokenFree (interc (vals env5 0) [("A=").data, ("-").data, ("!").data]) ∧
      substituteContent env5 (interc (TOK 0) [("A=").data, ("-").data, ("!").data]) =
        interc (vals env5 0) [("A=").data, ("-").data, ("!").data] :=
  ⟨by decide, by decide,
    c5_all_occurrences env5 0 [("A=").data, ("-").data, ("!").data]
      (by decide) (by decide)⟩

/-- C4: when the environment variable of table entry `i` is unset, the
program resolves it to the empty string without error, and every designated
occurrence of its token is removed: the output is the join of the pieces,
provided the pieces and their join are token-free. -/
theorem c4_unset_removed (env : Env) (i : Fin 4) (xs : List (List Char))
    (hun : env (NAME i) = none)
    (hxs : ∀ x ∈ xs, TokenFree x)
    (hj : TokenFree xs.flatten) :
    vals env i = [] ∧ substituteContent env (interc (TOK i) xs) = xs.flatten := by
  have hv : vals env i = [] := by simp [vals, hun]
  refine ⟨hv, ?_⟩
  have hgen := gen_single env i xs hxs (by rw [hv, interc_nil_sep]; exact hj)
  rw [hv, interc_nil_sep] at hgen
  exact hgen

/-- Closed witness for C4: DSN unset, one token occurrence removed. -/
theorem c4_unset_removed_witness :
    (fun _ => (none : Option (List Char))) (NAME 0) = none ∧
      substituteContent (fun _ => none) (interc (TOK 0) [("a").data, ("b").data]) =
        (["a".data, "b".data]).flatten :=
  ⟨rfl,
    (c4_unset_removed (fun _ => none) 0 [("a").data, ("b").data] rfl
      (by decide) (by decide)).2⟩

/-- C7: substitution is plain substring replacement: a resolved value
containing regex-special characters is inserted character for character,
neither escaped nor interpreted, around a single designated occurrence. -/
theorem c7_plain_substring (env : Env) (i : Fin 4) (a b : List Char)
    (ha : TokenFree a) (hb : TokenFree b)
    (_hsp : ∃ c ∈ vals env i, c ∈ regexSpecials)
    (hout : TokenFree (a ++ vals env i ++ b)) :
    substituteContent env (a ++ TOK i ++ b) = a ++ vals env i ++ b := by
  have h1 : interc (TOK i) [a, b] = a ++ TOK i ++ b := rfl
  have h2 : interc (vals env i) [a, b] = a ++ vals env i ++ b := rfl
  have hgen := gen_single env i [a, b]
    (by
      intro x hx
      rcases List.mem_cons.mp hx with rfl | hx2
      · exact ha
      · rcases List.mem_cons.mp hx2 with rfl | hx3
        · exact hb
        · simp at hx3)
    (by rw [h2]; exact hout)
  rw [h1, h2] at hgen
  exact hgen

/-- Closed witness for C7: the regex-special value is inserted literally. -/
theorem c7_plain_substring_witness :
    (∃ c ∈ vals env7 0, c ∈ regexSpecials) ∧
      substituteContent env7 (("x=").data ++ TOK 0 ++ ("!").data) =
        ("x=").data ++ vals env7 0 ++ ("!").data :=
  ⟨by decide,
    c7_plain_substring env7 0 ("x=").data ("!").data (by decide) (by decide)
      (by decide) (by decide)⟩

/-- A pass for entry `i` on a marked template with token-free pieces replaces
exactly the designated `i`-occurrences. -/
theorem pass_render (i : Fin 4) (v : List Char) :
    ∀ ms last, PiecesOK ms last →
      replaceAll (TOK i) v (render2 ms last) =
        render2 (collapse i v ms last).1 (collapse i v ms last).2 := by
  intro ms
  induction ms with
  | nil =>
    intro last hok
    exact ra_id _ _ _ (hok.2 i)
  | cons wj rest ih =>
    intro last hok
    obtain ⟨w, j⟩ := wj
    have hw : TokenFree w := hok.1 (w, j) (by simp)
    have hrest : PiecesOK rest last :=
      ⟨fun x hx => hok.1 x (by simp [hx]), hok.2⟩
    have hhd : (TOK j ++ render2 rest last).head? = some '$' := by
      rw [List.head?_append_of_ne_nil _ (tok_ne_nil j)]
      exact tok_head j
    have hskip : replaceAll (TOK i) v (w ++ (TOK j ++ render2 rest last)) =
        w ++ replaceAll (TOK i) v (TOK j ++ render2 rest last) :=
      skip_chunk (TOK i) v w _ (fun u hu hne => s1_piece hw hhd i u hu hne)
    show replaceAll (TOK i) v (w ++ TOK j ++ render2 rest last) = _
    rw [List.append_assoc, hskip]
    by_cases hj : j = i
    · subst hj
      have hpos : replaceAll (TOK j) v (TOK j ++ render2 rest last) =
          v ++ replaceAll (TOK j) v (render2 rest last) := by
        rw [ra_pos (TOK j) v _ (tok_ne_nil j)
          (by
            have := tok_ne_nil j
            cases hT : TOK j with
            | nil => exact absurd hT this
            | cons a b => simp [hT])
          (List.prefix_append _ _)]
        rw [List.drop_left]
      rw [hpos, ih last hrest]
      show w ++ (v ++ render2 (collapse j v rest last).1 (collapse j v rest last).2) = _
      simp only [collapse, if_true]
      cases hc : (collapse j v rest last).1 with
      | nil =>
        simp only [hc, render2]
        rw [hc] at *
        show w ++ (v ++ (collapse j v rest last).2) = w ++ v ++ (collapse j v rest last).2
        simp [List.append_assoc]
      | cons hd tl =>
        obtain ⟨w', k⟩ := hd
        simp only [hc, render2]
        simp [List.append_assoc]
    · have htc : replaceAll (TOK i) v (TOK j ++ render2 rest last) =
          TOK j ++ replaceAll (TOK i) v (render2 rest last) :=
        tok_chunk (fun h => hj h.symm) v _
      rw [htc, ih last hrest]
      have hne : (j = i) = False := by simp [hj]
      show w ++ (TOK j ++ render2 (collapse i v rest last).1 (collapse i v rest last).2) =
        render2 (collapse i v ((w, j) :: rest) last).1 (collapse i v ((w, j) :: rest) last).2
      simp only [collapse, hne, if_false, render2]
      simp [List.append_assoc]

/-- An occurrence of a token inside text starting with a token-character-free
non-empty block must lie entirely after the block. -/
theorem vfree_skip_inf {q : Fin 4} :
    ∀ v b, (∀ c ∈ v, c ∉ TOK q) → TOK q <:+: v ++ b → TOK q <:+: b := by
  intro v
  induction v with
  | nil => intro b _ h; simpa using h
  | cons c v' ih =>
    intro b hv hinf
    rw [List.cons_append] at hinf
    rcases List.infix_cons_iff.mp hinf with hpre | htail
    · exfalso
      have h1 : (TOK q).head? = some c := by
        rw [pref_head_eq hpre (tok_ne_nil q)]
        rfl
      obtain ⟨ys, hys⟩ := List.head?_eq_some_iff.mp h1
      exact hv c (by simp) (by rw [hys]; simp)
    · exact ih b (fun d hd => hv d (by simp [hd])) htail

/-- Merging two token-free pieces around an insertion-safe value yields a
token-free piece. -/
theorem tf_merge {w v b : List Char} (hw : TokenFree w) (hv : VOK v)
    (hb : TokenFree b) : TokenFree (w ++ v ++ b) := by
  intro q
  rw [List.append_assoc]
  have aux : ∀ w', TokenFree w' → ¬ TOK q <:+: w' ++ (v ++ b) := by
    intro w'
    induction w' with
    | nil =>
      intro _ hinf
      simp only [List.nil_append] at hinf
      exact hb q (vfree_skip_inf v b (hv.2 q) hinf)
    | cons c w'' ih =>
      intro hw' hinf
      rw [List.cons_append] at hinf
      rcases List.infix_cons_iff.mp hinf with hpre | htail
      · have hpre2 : TOK q <+: (c :: w'') ++ (v ++ b) := by simpa using hpre
        by_cases hlen : (TOK q).length ≤ (c :: w'').length
        · exact hw' q
            (List.prefix_of_prefix_length_le hpre2 (List.prefix_append _ _)
              hlen).isInfix
        · push_neg at hlen
          have hsp := pref_split hpre2 (le_of_lt hlen)
          have hrne : (TOK q).drop (c :: w'').length ≠ [] := by
            intro h0
            have := congrArg List.length h0
            simp only [List.length_drop, List.length_nil] at this
            omega
          have hh : ((TOK q).drop (c :: w'').length).head? = (v ++ b).head? :=
            pref_head_eq hsp.2 hrne
          rw [List.head?_append_of_ne_nil v hv.1] at hh
          obtain ⟨d, hd⟩ : ∃ d, v.head? = some d := by
            cases hV : v with
            | nil => exact absurd hV hv.1
            | cons e es => exact ⟨e, by simp [hV]⟩
          rw [hd] at hh
          have hdv : d ∈ v := by
            obtain ⟨ys, hys⟩ := List.head?_eq_some_iff.mp hd
            rw [hys]; simp
          have hdt : d ∈ TOK q := by
            obtain ⟨ys, hys⟩ := List.head?_eq_some_iff.mp hh
            have : d ∈ (TOK q).drop (c :: w'').length := by rw [hys]; simp
            exact List.drop_subset _ _ this
          exact hv.2 q d hdv hdt
      · exact ih (fun i h => hw' i (List.infix_cons h)) htail
  exact aux w hw

/-- One pass preserves token-freeness of the pieces when the inserted value
is insertion-safe. -/
theorem collapse_ok (i : Fin 4) (v : List Char) (hv : VOK v) :
    ∀ ms last, PiecesOK ms last →
      PiecesOK (collapse i v ms last).1 (collapse i v ms last).2 := by
  intro ms
  induction ms with
  | nil => intro last hok; exact hok
  | cons wj rest ih =>
    intro last hok
    obtain ⟨w, j⟩ := wj
    have hw : TokenFree w := hok.1 (w, j) (by simp)
    have hrest := ih last ⟨fun x hx => hok.1 x (by simp [hx]), hok.2⟩
    by_cases hj : j = i
    · subst hj
      cases hc : (collapse j v rest last).1 with
      | nil =>
        simp only [collapse, if_true, hc]
        refine ⟨by simp, ?_⟩
        have hlast : TokenFree (collapse j v rest last).2 := hrest.2
        exact tf_merge hw hv hlast
      | cons hd tl =>
        obtain ⟨w', k⟩ := hd
        simp only [collapse, if_true, hc]
        refine ⟨?_, hrest.2⟩
        intro x hx
        rcases List.mem_cons.mp hx with rfl | hx2
        · have hw' : TokenFree w' := by
            have := hrest.1 (w', k)
            rw [hc] at this
            exact this (by simp)
          exact tf_merge hw hv hw'
        · have := hrest.1 x
          rw [hc] at this
          exact this (by simp [hx2])
    · have hne : (j = i) = False := by simp [hj]
      simp only [collapse, hne, if_false]
      refine ⟨?_, hrest.2⟩
      intro x hx
      rcases List.mem_cons.mp hx with rfl | hx2
      · exact hw
      · exact hrest.1 x hx2

/-- Marks surviving a pass for entry `i` are marks of the input other than
`i`. -/
theorem collapse_marks (i : Fin 4) (v : List Char) :
    ∀ ms last wj, wj ∈ (collapse i v ms last).1 →
      wj.2 ≠ i ∧ ∃ w'', (w'', wj.2) ∈ ms := by
  intro ms
  induction ms with
  | nil => intro last wj h; simp [collapse] at h
  | cons hd rest ih =>
    intro last wj hmem
    obtain ⟨w, j⟩ := hd
    by_cases hj : j = i
    · subst hj
      cases hc : (collapse j v rest last).1 with
      | nil =>
        simp only [collapse, if_true, hc] at hmem
        simp at hmem
      | cons hd' tl =>
        obtain ⟨w', k⟩ := hd'
        simp only [collapse, if_true, hc] at hmem
        rcases List.mem_cons.mp hmem with rfl | hx2
        · have := ih last (w', k) (by rw [hc]; simp)
          refine ⟨this.1, ?_⟩
          obtain ⟨w'', hw''⟩ := this.2
          exact ⟨w'', by simp [hw'']⟩
        · have := ih last wj (by rw [hc]; simp [hx2])
          refine ⟨this.1, ?_⟩
          obtain ⟨w'', hw''⟩ := this.2
          exact ⟨w'', by simp [hw'']⟩
    · have hne : (j = i) = False := by simp [hj]
      simp only [collapse, hne, if_false] at hmem
      rcases List.mem_cons.mp hmem with rfl | hx2
      · exact ⟨hj, ⟨w, by simp⟩⟩
      · have := ih last wj hx2
        refine ⟨this.1, ?_⟩
        obtain ⟨w'', hw''⟩ := this.2
        exact ⟨w'', by simp [hw'']⟩

/-- Substituting the designated `i`-occurrences first and finishing the other
marks later yields the same result as finishing all marks directly. -/
theorem renderDone_collapse (env : Env) (i : Fin 4) :
    ∀ ms last,
      renderDone env (collapse i (vals env i) ms last).1
          (collapse i (vals env i) ms last).2 =
        renderDone env ms last := by
  intro ms
  induction ms with
  | nil => intro last; rfl
  | cons hd rest ih =>
    intro last
    obtain ⟨w, j⟩ := hd
    by_cases hj : j = i
    · subst hj
      cases hc : (collapse j (vals env j) rest last).1 with
      | nil =>
        simp only [collapse, if_true, hc, renderDone]
        have hI := ih last
        rw [hc] at hI
        simp only [renderDone] at hI
        rw [hI]
      | cons hd' tl =>
        obtain ⟨w', k⟩ := hd'
        simp only [collapse, if_true, hc, renderDone]
        have hI := ih last
        rw [hc] at hI
        simp only [renderDone] at hI
        rw [← hI]
        simp [List.append_assoc]
    · have hne : (j = i) = False := by simp [hj]
      simp only [collapse, hne, if_false, renderDone]
      rw [ih last]

/-- Every pass order that covers all designated marks of a marked template
with token-free pieces fully substitutes it, yielding the literal-insertion
result, provided every resolved value is insertion-safe. -/
theorem seq_all (env : Env) (hv : ∀ q : Fin 4, VOK (vals env q)) :
    ∀ ord ms last, PiecesOK ms last → (∀ wj ∈ ms, wj.2 ∈ ord) →
      seqSubst env ord (render2 ms last) = renderDone env ms last := by
  intro ord
  induction ord with
  | nil =>
    intro ms last hok hm
    cases ms with
    | nil => rfl
    | cons wj rest => exact absurd (hm wj (by simp)) (by simp)
  | cons i rest ih =>
    intro ms last hok hm
    show seqSubst env rest (replaceAll (TOK i) (vals env i) (render2 ms last)) = _
    rw [pass_render i (vals env i) ms last hok]
    rw [ih (collapse i (vals env i) ms last).1 (collapse i (vals env i) ms last).2
      (collapse_ok i _ (hv i) ms last hok)
      (by
        intro wj hwj
        have hcm := collapse_marks i (vals env i) ms last wj hwj
        obtain ⟨w'', hw''⟩ := hcm.2
        have := hm (w'', wj.2) hw''
        rcases List.mem_cons.mp this with h | h
        · exact absurd h hcm.1
        · exact h)]
    exact renderDone_collapse env i ms last

theorem fin4_mem_all : ∀ q : Fin 4, q ∈ ([0, 1, 2, 3] : List (Fin 4)) := by decide

/-- C1 counterexample: on the template consisting of the DSN token alone, the
resolved DSN value (which contains the cipher token) is NOT inserted
literally: the subsequent cipher replacement re-scans it and expands the
cipher token it contains, so the output is X rather than the DSN value. -/
theorem c1_cex :
    substituteContent envC1 (TOK 0) = ("X").data ∧
      substituteContent envC1 (TOK 0) ≠ vals envC1 0 :=
  ⟨by decide, by decide⟩

/-- C1 (amended): a value is never re-scanned by the pass that inserted it,
but later passes re-scan the whole text, so a later variable's token inside a
substituted value IS re-expanded.  When every resolved value is non-empty and
shares no character with any placeholder token, the four values are inserted
literally into the template and never re-expanded: the program output on a
marked template with token-free pieces is the literal-insertion rendering. -/
theorem c1_literal_insertion (env : Env) (ms : List (List Char × Fin 4))
    (last : List Char) (hok : PiecesOK ms last)
    (hv : ∀ q : Fin 4, VOK (vals env q)) :
    substituteContent env (render2 ms last) = renderDone env ms last := by
  rw [subst_eq_seq]
  exact seq_all env hv [0, 1, 2, 3] ms last hok (fun wj _ => fin4_mem_all wj.2)

/-- Closed witness for the amended C1. -/
theorem c1_literal_insertion_witness :
    PiecesOK [(("A=").data, (0 : Fin 4))] ("!").data ∧
      (∀ q : Fin 4, VOK (vals envW q)) ∧
      substituteContent envW (render2 [(("A=").data, (0 : Fin 4))] ("!").data) =
        renderDone envW [(("A=").data, (0 : Fin 4))] ("!").data :=
  ⟨by decide, by decide,
    c1_literal_insertion envW [(("A=").data, (0 : Fin 4))] ("!").data
      (by decide) (by decide)⟩

/-- C2 counterexample: with every variable unset, running the cipher pass
before the DSN pass yields a different output than the declared order, so
declaration order does affect the final result. -/
theorem c2_cex :
    seqSubst envN [1, 0, 2, 3] cexT2 ≠ substituteContent envN cexT2 := by
  decide

/-- C2 (amended): when every resolved value is non-empty and shares no
character with any placeholder token, applying the four replacements in any
order that covers all four table entries yields the same output as the
declared order, on every marked template with token-free pieces. -/
theorem c2_order_independent (env : Env) (ms : List (List Char × Fin 4))
    (last : List Char) (ord : List (Fin 4)) (hok : PiecesOK ms last)
    (hv : ∀ q : Fin 4, VOK (vals env q)) (hord : ∀ q : Fin 4, q ∈ ord) :
    seqSubst env ord (render2 ms last) =
      substituteContent env (render2 ms last) := by
  rw [subst_eq_seq,
    seq_all env hv ord ms last hok (fun wj _ => hord wj.2),
    seq_all env hv [0, 1, 2, 3] ms last hok (fun wj _ => fin4_mem_all wj.2)]

/-- Closed witness for the amended C2 at the reversed pass order. -/
theorem c2_order_independent_witness :
    PiecesOK [(("A=").data, (0 : Fin 4))] ("?").data ∧
      (∀ q : Fin 4, q ∈ ([3, 2, 1, 0] : List (Fin 4))) ∧
      seqSubst envW [3, 2, 1, 0] (render2 [(("A=").data, (0 : Fin 4))] ("?").data) =
        substituteContent envW (render2 [(("A=").data, (0 : Fin 4))] ("?").data) :=
  ⟨by decide, by decide,
    c2_order_independent envW [(("A=").data, (0 : Fin 4))] ("?").data
      [3, 2, 1, 0] (by decide) (by decide) (by decide)⟩

theorem renderDone_suffix (env : Env) :
    ∀ ms last, last <:+ renderDone env ms last := by
  intro ms
  induction ms with
  | nil => intro last; exact List.suffix_rfl
  | cons hd rest ih =>
    intro last
    obtain ⟨w, j⟩ := hd
    show last <:+ (w ++ vals env j) ++ renderDone env rest last
    exact (ih last).trans (List.suffix_append _ _)

/-- An occurrence of an unrecognized placeholder can never overlap a
recognized token occurrence, so a pass walks over it unchanged. -/
theorem unk_chunk (i : Fin 4) (v u : List Char) (hu : UnknownTok u)
    (b : List Char) :
    replaceAll (TOK i) v (u ++ b) = u ++ replaceAll (TOK i) v b := by
  obtain ⟨hh, hnd, hcmp⟩ := hu
  apply skip_chunk
  intro w hsuf hne hpre
  obtain ⟨pre, hpre'⟩ := hsuf
  by_cases hk : pre = []
  · subst hk
    simp only [List.nil_append] at hpre'
    subst hpre'
    by_cases hlen : (TOK i).length ≤ w.length
    · exact (hcmp i).1
        (List.prefix_of_prefix_length_le hpre (List.prefix_append _ _) hlen)
    · push_neg at hlen
      have hsp := pref_split hpre (le_of_lt hlen)
      exact (hcmp i).2 hsp.1
  · have hw_eq : w = u.drop pre.length := by rw [← hpre', List.drop_left]
    have hk0 : 0 < pre.length := by
      cases pre with
      | nil => exact absurd rfl hk
      | cons x y => simp
    have hkl : pre.length < u.length := by
      have hLL : pre.length + w.length = u.length := by
        rw [← hpre', List.length_append]
      have hw0 : 0 < w.length := by
        cases w with
        | nil => exact absurd rfl hne
        | cons x y => simp
      omega
    have h1 : (TOK i).head? = (w ++ b).head? := pref_head_eq hpre (tok_ne_nil i)
    rw [tok_head i, List.head?_append_of_ne_nil w hne] at h1
    rw [hw_eq] at h1
    exact hnd pre.length hkl hk0 h1.symm

/-- A single pass factors around an occurrence of an unrecognized
placeholder: the occurrence itself is untouched and the two sides are
processed exactly as they would be on their own.  Holds for every value and
every surrounding text. -/
theorem ra_factor (i : Fin 4) (v u : List Char) (hu : UnknownTok u) :
    ∀ a b, replaceAll (TOK i) v (a ++ (u ++ b)) =
      replaceAll (TOK i) v a ++ (u ++ replaceAll (TOK i) v b) := by
  have hu0 : u ≠ [] := by
    intro h0
    have hh := hu.1
    rw [h0] at hh
    simp at hh
  have haux : ∀ n a b, a.length ≤ n →
      replaceAll (TOK i) v (a ++ (u ++ b)) =
        replaceAll (TOK i) v a ++ (u ++ replaceAll (TOK i) v b) := by
    intro n
    induction n using Nat.strong_induction_on with
    | _ n ih =>
      intro a b hlen
      cases a with
      | nil =>
        simp only [List.nil_append]
        rw [ra_nil]
        simp only [List.nil_append]
        exact unk_chunk i v u hu b
      | cons c a' =>
        by_cases hm : TOK i <+: (c :: a') ++ (u ++ b)
        · have hple : (TOK i).length ≤ (c :: a').length := by
            by_contra hgt
            push_neg at hgt
            have hsp := pref_split hm (le_of_lt hgt)
            have hdne : (TOK i).drop (c :: a').length ≠ [] := by
              intro h0
              have := congrArg List.length h0
              simp only [List.length_drop, List.length_nil] at this
              omega
            have h1 := pref_head_eq hsp.2 hdne
            rw [List.head?_append_of_ne_nil u hu0, hu.1] at h1
            exact tok_no_inner_dollar i (c :: a').length hgt (by simp) h1
          have hpa : TOK i <+: (c :: a') :=
            List.prefix_of_prefix_length_le hm (List.prefix_append _ _) hple
          rw [ra_pos (TOK i) v ((c :: a') ++ (u ++ b)) (tok_ne_nil i)
            (by simp) hm]
          rw [ra_pos (TOK i) v (c :: a') (tok_ne_nil i) (by simp) hpa]
          rw [List.drop_append_of_le_length hple]
          have hn1 : n - 1 < n := by
            simp only [List.length_cons] at hlen
            omega
          have hlen2 : ((c :: a').drop (TOK i).length).length ≤ n - 1 := by
            have hT := tok_len_pos i
            simp only [List.length_drop, List.length_cons]
            simp only [List.length_cons] at hlen
            omega
          rw [ih (n - 1) hn1 _ b hlen2]
          simp [List.append_assoc]
        · have hnp : ¬ TOK i <+: c :: (a' ++ (u ++ b)) := by simpa using hm
          have hna : ¬ TOK i <+: (c :: a') :=
            fun h => hm (h.trans (List.prefix_append _ _))
          have hstep : replaceAll (TOK i) v ((c :: a') ++ (u ++ b)) =
              c :: replaceAll (TOK i) v (a' ++ (u ++ b)) :=
            ra_neg (TOK i) v c (a' ++ (u ++ b)) hnp
          rw [hstep, ra_neg (TOK i) v c a' hna]
          have hn1 : n - 1 < n := by
            simp only [List.length_cons] at hlen
            omega
          have hlen2 : a'.length ≤ n - 1 := by
            simp only [List.length_cons] at hlen
            omega
          rw [ih (n - 1) hn1 a' b hlen2]
          rfl
  intro a b
  exact haux a.length a b (Nat.le_refl _)

/-- C6: for every template and every environment, an unrecognized placeholder
token (e.g. the UNKNOWN_VAR token) is left verbatim in the output: no
recognized token occurrence can overlap it, so the whole substitution factors
around it — the occurrence itself is untouched and the surrounding text is
substituted exactly as it would be on its own.  No error is raised: the
substitution is a total function. -/
theorem c6_unknown_verbatim (env : Env) (u a b : List Char)
    (hu : UnknownTok u) :
    substituteContent env (a ++ u ++ b) =
      substituteContent env a ++ u ++ substituteContent env b := by
  have hseq : ∀ ord (a b : List Char), seqSubst env ord (a ++ (u ++ b)) =
      seqSubst env ord a ++ (u ++ seqSubst env ord b) := by
    intro ord
    induction ord with
    | nil => intro a b; rfl
    | cons i rest ih =>
      intro a b
      show seqSubst env rest
          (replaceAll (TOK i) (vals env i) (a ++ (u ++ b))) = _
      rw [ra_factor i (vals env i) u hu a b]
      exact ih _ _
  rw [List.append_assoc, subst_eq_seq env (a ++ (u ++ b)), subst_eq_seq env a,
    subst_eq_seq env b, hseq [0, 1, 2, 3] a b, List.append_assoc]

/-- Closed witness for C6: with every variable unset, the DSN token
preceding the UNKNOWN_VAR token is removed while the UNKNOWN_VAR token passes
through verbatim. -/
theorem c6_unknown_verbatim_witness :
    UnknownTok (placeholder "UNKNOWN_VAR").data ∧
      substituteContent envN
          (TOK 0 ++ (placeholder "UNKNOWN_VAR").data ++ ("!").data) =
        substituteContent envN (TOK 0) ++ (placeholder "UNKNOWN_VAR").data ++
          substituteContent envN ("!").data :=
  ⟨by decide,
    c6_unknown_verbatim envN (placeholder "UNKNOWN_VAR").data (TOK 0)
      ("!").data (by decide)⟩

/-- C8: fewer than two positional arguments fail with an argument error
before any file is read or written (empty effect trace); with two arguments
and a readable template the run reads, writes the substituted content,
prints the confirmation line naming both paths, and succeeds. -/
theorem c8_cli (env : Env) (fs : String → Option (List Char)) :
    (∀ argv : List String, argv.length < 3 →
        runMain argv env fs = (Except.error MainErr.argErr, [])) ∧
    (∀ (p tf outf : String) (rest : List String) (content : List Char),
        fs tf = some content →
        runMain (p :: tf :: outf :: rest) env fs =
          (Except.ok (),
            [Eff.readFile tf,
             Eff.writeFile outf (substituteContent env content),
             Eff.printLine ("Substituted variables in " ++ tf ++ " -> " ++ outf)])) := by
  constructor
  · intro argv hlen
    cases argv with
    | nil => rfl
    | cons a t1 =>
      cases t1 with
      | nil => rfl
      | cons b t2 =>
        cases t2 with
        | nil => rfl
        | cons c t3 =>
          exfalso
          simp only [List.length_cons] at hlen
          omega
  · intro p tf outf rest content h
    have hred : runMain (p :: tf :: outf :: rest) env fs =
        (match fs tf with
         | none => (Except.error MainErr.ioErr, [Eff.readFile tf])
         | some content =>
             (Except.ok (),
               [Eff.readFile tf,
                Eff.writeFile outf (substituteContent env content),
                Eff.printLine
                  ("Substituted variables in " ++ tf ++ " -> " ++ outf)])) := rfl
    rw [hred, h]

/-- Closed witness for C8: one missing argument fails cleanly; a full
invocation succeeds with the expected trace. -/
theorem c8_cli_witness :
    runMain ["prog"] envN fsW = (Except.error MainErr.argErr, []) ∧
      runMain ["prog", "tpl", "out"] envN fsW =
        (Except.ok (),
          [Eff.readFile "tpl",
           Eff.writeFile "out" (substituteContent envN ("a").data),
           Eff.printLine ("Substituted variables in " ++ "tpl" ++ " -> " ++ "out")]) :=
  ⟨(c8_cli envN fsW).1 ["prog"] (by decide),
   (c8_cli envN fsW).2 "prog" "tpl" "out" [] ("a").data (by decide)⟩

/-- C9: only the four table variables influence the run: two environments
that agree on them produce identical substituted content and an identical
run (result and effect trace) on every template, argument list and file
system. -/
theorem c9_noninterference (env1 env2 : Env)
    (h : ∀ n ∈ varNames, env1 n = env2 n) :
    (∀ c, substituteContent env1 c = substituteContent env2 c) ∧
    (∀ argv fs, runMain argv env1 fs = runMain argv env2 fs) := by
  have hvt : vars_to_sub env1 = vars_to_sub env2 := by
    unfold vars_to_sub
    exact List.map_congr_left (fun n hn => by rw [h n hn])
  have hsc : ∀ c, substituteContent env1 c = substituteContent env2 c := by
    intro c
    unfold substituteContent
    rw [hvt]
  refine ⟨hsc, ?_⟩
  intro argv fs
  cases h1 : argv[1]? with
  | none => simp [runMain, h1]
  | some tf =>
    cases h2 : argv[2]? with
    | none => simp [runMain, h1, h2]
    | some outf =>
      cases h3 : fs tf with
      | none => simp [runMain, h1, h2, h3]
      | some content => simp [runMain, h1, h2, h3, hsc content]

/-- Closed witness for C9: the two environments differ on HOME yet produce
the same substituted content. -/
theorem c9_noninterference_witness :
    (∀ n ∈ varNames, envN n = env9 n) ∧
      substituteContent envN ("q").data = substituteContent env9 ("q").data :=
  ⟨by decide, (c9_noninterference envN env9 (by decide)).1 ("q").data⟩

/-- C10: positional arguments beyond the first two are ignored: a run with
extra arguments is identical (result and effect trace) to the run with only
the first two. -/
theorem c10_extra_args (p a b : String) (rest : List String) (env : Env)
    (fs : String → Option (List Char)) :
    runMain (p :: a :: b :: rest) env fs = runMain [p, a, b] env fs := rfl
